import Mathlib

/-!
Verification of the item synchronization subsystem of the server
(routes in `src/routes/api/items`): item store, change log, pagination
cursor and the sync API layer. The route handlers are translated from the
source file; the storage collaborators (`ItemModel`, `ChangeModel`, the
pagination helpers) are not part of the provided sources and are modelled
from the specification, as indicated on each definition.
-/

/-- A user id, as derived from the session (`ctx.owner.id`). -/
abbrev Uuid := String

/-- Raw item content: a byte sequence. -/
abbrev Bytes := List Nat

/-- The kind of a change-log entry: `Create`, `Update` or `Delete`. -/
inductive ChangeType where
  | create
  | update
  | delete
  deriving DecidableEq, Repr

/-- One synchronized item of one owner (the owner is implicit: the whole
store state is kept per owner). `id` is the stable identifier, `name` the
canonical hierarchical name, `content` the raw bytes. -/
structure Item where
  id : Nat
  name : String
  content : Bytes
  deriving DecidableEq, Repr

/-- One observable mutation of the item store for one owner. The `ctype`
field models the `type` column. The opaque `id` of an event is modelled by
the same counter that assigns the sequence. -/
structure ChangeEvent where
  id : Nat
  itemId : Nat
  itemName : String
  ctype : ChangeType
  sequence : Nat
  deriving DecidableEq, Repr

/-- Modelled from the spec: the canonical API representation of an item
(`toApiOutput` of `ItemModel`, absent from the provided sources): the
stable id and canonical name of the item. -/
structure ApiItem where
  id : Nat
  name : String
  deriving DecidableEq, Repr

/-- An opaque pagination token, modelled as the list of the fields of the
versioned encoding. -/
abbrev Token := List Nat

/-- A decoded pagination cursor: last-seen position and page-size limit. -/
structure Pagination where
  position : Nat
  limit : Nat
  deriving DecidableEq, Repr

/-- Modelled from the spec: the configured maximum page size bound of the
pagination mechanism (`maxPageSize`, absent from the provided sources). -/
def maxPageSize : Nat := 1000

/-- Modelled from the spec: the default page limit used when a request
supplies no cursor and no page-size hint. -/
def defaultPageLimit : Nat := 100

/-- Modelled from the spec: the limit is clamped to `[1, maxPageSize]`. -/
def clampLimit (l : Nat) : Nat := min (max l 1) maxPageSize

/-- Modelled from the spec: the integrity check of the cursor encoding
(an integer position plus an integrity check over the payload). -/
def cursorCheck (p l : Nat) : Nat := (p * 31 + l * 7 + 3) % 1000003

/-- Modelled from the spec: encodes `(position, limit)` into an opaque,
versioned, tamper-detectable token. -/
def encodeCursor (p l : Nat) : Token := [1, p, l, cursorCheck p l]

/-- Modelled from the spec: decodes a token back to `(position, limit)`;
any token that is not a well-formed version-1 encoding with a matching
integrity check is rejected (the `InvalidCursor` outcome). -/
def decodeCursor : Token → Option Pagination
  | [v, p, l, c] =>
      if v = 1 ∧ c = cursorCheck p l then some { position := p, limit := l } else none
  | _ => none

/-- A page of results as returned by the delta and children endpoints:
the items, the `has_more` flag, and the encoded cursor of the next page. -/
structure Page (α : Type) where
  items : List α
  hasMore : Bool
  cursor : Token
  deriving DecidableEq, Repr

/-- The per-owner state of the subsystem: the owner's items, the owner's
append-only change log, the next per-owner sequence number (sequences
start at 1), and the next fresh item id. -/
structure OwnerState where
  items : List Item
  changes : List ChangeEvent
  nextSeq : Nat
  nextId : Nat
  deriving DecidableEq, Repr

/-- The initial per-owner state: no items, empty change log. -/
def initOwner : OwnerState :=
  { items := [], changes := [], nextSeq := 1, nextId := 1 }

/-- The whole server state: every owner's entities, strictly partitioned
by owner id. -/
abbrev ServerState := Uuid → OwnerState

/-- The initial server state. -/
def initState : ServerState := fun _ => initOwner

/-- Modelled from the spec: `pathToName` of `ItemModel` (absent from the
provided sources) is a deterministic, pure mapping from the caller-supplied
path id to the canonical storage name; it is modelled as the identity
normalization. -/
def ItemModel.pathToName (pathId : String) : String := pathId

/-- Modelled from the spec: `loadByName` of `ItemModel` (absent from the
provided sources): the owner's item with the given canonical name, if any. -/
def ItemModel.loadByName (os : OwnerState) (name : String) : Option Item :=
  os.items.find? (fun i => i.name == name)

/-- Modelled from the spec: `toApiOutput` of `ItemModel` (absent from the
provided sources): the canonical API representation of an item. -/
def ItemModel.toApiOutput (it : Item) : ApiItem :=
  { id := it.id, name := it.name }

/-- Modelled from the spec: `append` of the change log (absent from the
provided sources): assigns the next per-owner sequence number and appends
one event, in the same atomic unit of work as the calling mutation. -/
def appendChange (os : OwnerState) (itemId : Nat) (itemName : String) (t : ChangeType) : OwnerState :=
  { os with
    changes := os.changes ++
      [{ id := os.nextSeq, itemId := itemId, itemName := itemName, ctype := t, sequence := os.nextSeq }]
    nextSeq := os.nextSeq + 1 }

/-- Modelled from the spec: `saveFromRawContent` of `ItemModel` (absent
from the provided sources): idempotent upsert — creates the item if absent,
replaces the content if present; appends exactly one ChangeEvent (`Create`
or `Update` depending on prior existence) in the same atomic operation, and
returns the resulting item. -/
def ItemModel.saveFromRawContent (os : OwnerState) (name : String) (bytes : Bytes) : Item × OwnerState :=
  match ItemModel.loadByName os name with
  | some old =>
      let it : Item := { old with content := bytes }
      let os' : OwnerState :=
        { os with items := os.items.map (fun i => if i.name == name then { i with content := bytes } else i) }
      (it, appendChange os' it.id name ChangeType.update)
  | none =>
      let it : Item := { id := os.nextId, name := name, content := bytes }
      let os' : OwnerState := { os with items := os.items ++ [it], nextId := os.nextId + 1 }
      (it, appendChange os' it.id name ChangeType.create)

/-- Modelled from the spec: `delete` of `ItemModel` (absent from the
provided sources): no-op if the item is already absent; removes the item
and appends one `Delete` ChangeEvent if it existed. -/
def ItemModel.delete (os : OwnerState) (itemId : Nat) : OwnerState :=
  match os.items.find? (fun i => i.id == itemId) with
  | none => os
  | some it =>
      appendChange { os with items := os.items.filter (fun i => !(i.id == itemId)) }
        it.id it.name ChangeType.delete

/-- Modelled from the spec: `deleteAll` of `ItemModel` (absent from the
provided sources): destructive bulk deletion of every item of the owner,
performed unconditionally by the store (the environment gate is the API
layer's responsibility); modelled as deleting each item in turn. -/
def ItemModel.deleteAll (os : OwnerState) : OwnerState :=
  os.items.foldl (fun acc it => ItemModel.delete acc it.id) os

/-- Modelled from the spec: `serializedContent` of `ItemModel` (absent from
the provided sources): the raw bytes of the item with the given id, failing
with `NotFound` when no such item exists. -/
def ItemModel.serializedContent (os : OwnerState) (itemId : Nat) : Option Bytes :=
  match os.items.find? (fun i => i.id == itemId) with
  | some it => some it.content
  | none => none

/-- Modelled from the spec: the last-seen sequence position encoded into
the next-page cursor of `pageSince`: the sequence of the last returned
event, or the request position when the page is empty. -/
def lastSeenPosition (items : List ChangeEvent) (pos : Nat) : Nat :=
  match items.getLast? with
  | some e => e.sequence
  | none => pos

/-- Modelled from the spec: `pageSince` of the change log (absent from the
provided sources): the events with `sequence > position`, in ascending
sequence order, up to `limit` entries; `hasMore` is set when more events
exist beyond this page; the response carries the encoded next cursor. -/
def ChangeModel.pageSince (os : OwnerState) (pos limit : Nat) : Page ChangeEvent :=
  { items := (os.changes.filter (fun e => decide (pos < e.sequence))).take limit
    hasMore := decide (limit < (os.changes.filter (fun e => decide (pos < e.sequence))).length)
    cursor := encodeCursor
      (lastSeenPosition ((os.changes.filter (fun e => decide (pos < e.sequence))).take limit) pos) limit }

/-- Modelled from the spec: `allForUser` of `ChangeModel` (absent from the
provided sources), as called by the delta route: one page of the owner's
change feed for the decoded pagination. -/
def ChangeModel.allForUser (os : OwnerState) (pg : Pagination) : Page ChangeEvent :=
  ChangeModel.pageSince os pg.position pg.limit

/-- Modelled from the spec: whether `name` is a direct descendant of
`parent` in the hierarchical naming scheme: `parent ++ "/"` followed by one
non-empty segment with no further separator. -/
def isDirectChild (parent name : String) : Bool :=
  decide (name.take (parent ++ "/").length = parent ++ "/") &&
    decide (name.drop (parent ++ "/").length ≠ "") &&
    !((name.drop (parent ++ "/").length).contains '/')

/-- The name ordering used by the children listing. -/
def byName (a b : Item) : Prop := a.name ≤ b.name

instance : DecidableRel byName := fun a b => inferInstanceAs (Decidable (a.name ≤ b.name))

instance : IsTotal Item byName := ⟨fun a b => le_total a.name b.name⟩

instance : IsTrans Item byName := ⟨fun _ _ _ h1 h2 => le_trans h1 h2⟩

/-- Modelled from the spec: the owner's direct descendants of `parent`,
ordered by name — the full listing that `children` paginates. -/
def sortedChildren (os : OwnerState) (parent : String) : List Item :=
  List.insertionSort byName (os.items.filter (fun i => isDirectChild parent i.name))

/-- Modelled from the spec: `children` of `ItemModel` (absent from the
provided sources): one page of the items whose canonical name is a direct
descendant of `parent`, ordered by name, paginated via the shared cursor
mechanism (the position is the offset into the ordered listing). -/
def ItemModel.children (os : OwnerState) (parent : String) (pg : Pagination) : Page Item :=
  { items := ((sortedChildren os parent).drop pg.position).take pg.limit
    hasMore := decide (pg.limit < ((sortedChildren os parent).drop pg.position).length)
    cursor := encodeCursor
      (pg.position + (((sortedChildren os parent).drop pg.position).take pg.limit).length) pg.limit }

/-- The query string of a request: an optional cursor token and an
optional page-size hint. -/
structure Query where
  cursor : Option Token
  limit : Option Nat
  deriving DecidableEq, Repr

/-- The error taxonomy of the subsystem, as raised by the routes and their
collaborators. -/
inductive ApiError where
  | notFound (msg : String)
  | methodNotAllowed (msg : String)
  | invalidCursor
  deriving DecidableEq, Repr

/-- Modelled from the spec: `requestPagination` (absent from the provided
sources): no cursor starts at position 0 with the (clamped) hinted or
default limit; a present cursor is decoded, failing with `InvalidCursor`
on a malformed token. -/
def requestPagination (q : Query) : Except ApiError Pagination :=
  match q.cursor with
  | none =>
      Except.ok { position := 0
                  limit := clampLimit (match q.limit with | some l => l | none => defaultPageLimit) }
  | some t =>
      match decodeCursor t with
      | some c => Except.ok { position := c.position, limit := clampLimit c.limit }
      | none => Except.error ApiError.invalidCursor

/-- Modelled from the spec: `requestChangePagination` (absent from the
provided sources); the spec mandates one shared cursor mechanism for the
change feed and the children listing. -/
def requestChangePagination (q : Query) : Except ApiError Pagination :=
  requestPagination q

/-- The request context: the authenticated caller (`ctx.owner.id`) and the
running environment (`ctx.env`). -/
structure Ctx where
  owner : Uuid
  env : String

/-- A request through the item sync API, one constructor per route of the
source file; the path id `:id` is carried for every route. For the content
upload, `body` models `parsedBody?.files?.file` (absent file means an
empty buffer). -/
inductive Request where
  | getItem (pathId : String)
  | delItem (pathId : String)
  | getContent (pathId : String)
  | putContent (pathId : String) (body : Option Bytes)
  | getDelta (pathId : String) (q : Query)
  | getChildren (pathId : String) (q : Query)

/-- The successful outputs of the routes. `itemContent` models
`respondWithItemContent(ctx.response, item, serializedContent)`. -/
inductive Output where
  | empty
  | apiItem (item : ApiItem)
  | itemContent (item : Item) (bytes : Bytes)
  | deltaPage (page : Page ChangeEvent)
  | childrenPage (page : Page Item)
  deriving DecidableEq, Repr

/-- The helper `itemFromPath` of the source file, at its only used configuration
(`mustExists = true`, the default at every call site): resolves the path
to a name, loads the item, and fails with `NotFound` when it is absent. -/
def itemFromPath (os : OwnerState) (pathId : String) : Except ApiError Item :=
  match ItemModel.loadByName os (ItemModel.pathToName pathId) with
  | some it => Except.ok it
  | none => Except.error (ApiError.notFound ("Not found: " ++ pathId))

/-- The body of the `try` block of the DELETE route: the root branch with
its environment gate, and the single-item branch. -/
def delItemInner (env : String) (pathId : String) (os : OwnerState) : Except ApiError OwnerState :=
  if pathId = "root" ∨ pathId = "root:/:" then
    if env ≠ "dev" then Except.error (ApiError.methodNotAllowed "Deleting the root is not allowed")
    else Except.ok (ItemModel.deleteAll os)
  else
    match itemFromPath os pathId with
    | Except.error e => Except.error e
    | Except.ok item => Except.ok (ItemModel.delete os item.id)

/-- The DELETE route of the source file: the `try` block around
`delItemInner`, with the `catch` that swallows `NotFound` (idempotent
no-op) and rethrows every other error. -/
def delItemRoute (env : String) (pathId : String) (os : OwnerState) : Except ApiError Output × OwnerState :=
  match delItemInner env pathId os with
  | Except.ok os' => (Except.ok Output.empty, os')
  | Except.error (ApiError.notFound _) => (Except.ok Output.empty, os)
  | Except.error e => (Except.error e, os)

/-- The six route handlers of the source file, acting on the caller's own
per-owner state (every model call of the source takes `ctx.owner.id` as its
scope). Note the delta route ignores its path id, exactly as the source
binds it to the unused `_path`. -/
def handleOwner (c : Ctx) (req : Request) (os : OwnerState) : Except ApiError Output × OwnerState :=
  match req with
  | Request.getItem pathId =>
      match itemFromPath os pathId with
      | Except.error e => (Except.error e, os)
      | Except.ok it => (Except.ok (Output.apiItem (ItemModel.toApiOutput it)), os)
  | Request.delItem pathId => delItemRoute c.env pathId os
  | Request.getContent pathId =>
      match itemFromPath os pathId with
      | Except.error e => (Except.error e, os)
      | Except.ok it =>
          match ItemModel.serializedContent os it.id with
          | some bytes => (Except.ok (Output.itemContent it bytes), os)
          | none => (Except.error (ApiError.notFound ("Not found: " ++ pathId)), os)
  | Request.putContent pathId body =>
      let r := ItemModel.saveFromRawContent os (ItemModel.pathToName pathId)
        (match body with | some b => b | none => [])
      (Except.ok (Output.apiItem (ItemModel.toApiOutput r.1)), r.2)
  | Request.getDelta _pathId q =>
      match requestChangePagination q with
      | Except.error e => (Except.error e, os)
      | Except.ok pg => (Except.ok (Output.deltaPage (ChangeModel.allForUser os pg)), os)
  | Request.getChildren pathId q =>
      match requestPagination q with
      | Except.error e => (Except.error e, os)
      | Except.ok pg =>
          (Except.ok (Output.childrenPage
            (ItemModel.children os (ItemModel.pathToName pathId) pg)), os)

/-- The sync API layer on the whole server state: every storage call of
every route is scoped to the authenticated caller's own owner id, so the
handler reads and writes only that owner's slice of the state. -/
def handle (c : Ctx) (req : Request) (s : ServerState) : Except ApiError Output × ServerState :=
  let r := handleOwner c req (s c.owner)
  (r.1, Function.update s c.owner r.2)

/-! ### Cursor lemmas -/

/-- Decoding an honestly encoded cursor recovers exactly the encoded pair. -/
theorem decodeCursor_encodeCursor (p l : Nat) :
    decodeCursor (encodeCursor p l) = some { position := p, limit := l } := by
  simp [decodeCursor, encodeCursor]

/-- Every successfully decoded token is an honest encoding of the returned
pair: decoding never silently yields a pair the token does not encode. -/
theorem decodeCursor_sound (t : Token) (p l : Nat)
    (h : decodeCursor t = some { position := p, limit := l }) : t = encodeCursor p l := by
  rcases t with _ | ⟨v, _ | ⟨p', _ | ⟨l', _ | ⟨c, _ | ⟨x, rest⟩⟩⟩⟩⟩ <;>
    simp [decodeCursor] at h
  rcases h with ⟨⟨hv, hc⟩, hp, hl⟩
  subst hv hp hl
  simp [encodeCursor, hc]

/-! ### Sequence-shape invariant of the change log -/

/-- The predicate `seqFrom k l` states that the events of `l` carry the consecutive
sequence numbers `k, k+1, ...` in order (gapless, strictly increasing). -/
def seqFrom : Nat → List ChangeEvent → Prop
  | _, [] => True
  | k, e :: rest => e.sequence = k ∧ seqFrom (k + 1) rest

theorem seqFrom_snoc (l : List ChangeEvent) : ∀ (k : Nat) (e : ChangeEvent),
    seqFrom k l → e.sequence = k + l.length → seqFrom k (l ++ [e]) := by
  induction l with
  | nil => intro k e _ he; exact ⟨by simpa using he, trivial⟩
  | cons a rest ih =>
      intro k e h he
      exact ⟨h.1, ih (k + 1) e h.2 (by simp at he ⊢; omega)⟩

theorem seqFrom_filter (l : List ChangeEvent) : ∀ (k pos : Nat), seqFrom k l →
    l.filter (fun e => decide (pos < e.sequence)) = l.drop (pos + 1 - k) := by
  induction l with
  | nil => intro k pos _; simp
  | cons a rest ih =>
      intro k pos h
      by_cases hp : pos < k
      · have h0 : pos + 1 - k = 0 := by omega
        have h1 : pos + 1 - (k + 1) = 0 := by omega
        have hrest := ih (k + 1) pos h.2
        rw [h1] at hrest
        simp only [List.filter, h.1, h0, List.drop_zero] at *
        simp [decide_eq_true hp, hrest]
      · have h0 : pos + 1 - k = (pos - k) + 1 := by omega
        have h1 : pos + 1 - (k + 1) = pos - k := by omega
        have hrest := ih (k + 1) pos h.2
        rw [h1] at hrest
        have hfalse : decide (pos < a.sequence) = false := by
          rw [h.1]; exact decide_eq_false hp
        simp only [List.filter, hfalse, h0, List.drop_succ_cons]
        exact hrest

theorem seqFrom_drop (n : Nat) : ∀ (l : List ChangeEvent) (k : Nat),
    seqFrom k l → seqFrom (k + n) (l.drop n) := by
  induction n with
  | zero => intro l k h; simpa using h
  | succ m ih =>
      intro l k h
      cases l with
      | nil => simp [seqFrom]
      | cons e rest =>
          have := ih rest (k + 1) h.2
          have heq : k + (m + 1) = (k + 1) + m := by omega
          rw [List.drop_succ_cons, heq]
          exact this

theorem seqFrom_take (l : List ChangeEvent) : ∀ (k n : Nat),
    seqFrom k l → seqFrom k (l.take n) := by
  induction l with
  | nil => intro k n _; simp [seqFrom]
  | cons e rest ih =>
      intro k n h
      cases n with
      | zero => simp [seqFrom]
      | succ m => exact ⟨h.1, ih (k + 1) m h.2⟩

theorem seqFrom_getLast (l : List ChangeEvent) : ∀ (k : Nat),
    seqFrom k l → l ≠ [] →
    ∃ e, l.getLast? = some e ∧ e.sequence = k + l.length - 1 := by
  induction l with
  | nil => intro k _ hne; exact absurd rfl hne
  | cons a rest ih =>
      intro k h _
      cases rest with
      | nil =>
          refine ⟨a, ?_, ?_⟩
          · simp
          · simpa using h.1
      | cons b t =>
          obtain ⟨e, hlast, hseq⟩ := ih (k + 1) h.2 (by simp)
          refine ⟨e, ?_, ?_⟩
          · rw [List.getLast?_cons_cons]; exact hlast
          · simp at hseq ⊢; omega

theorem seqFrom_map_range (l : List ChangeEvent) : ∀ (k : Nat), seqFrom k l →
    l.map (fun e => e.sequence) = List.range' k l.length := by
  induction l with
  | nil => intro k _; simp
  | cons a rest ih =>
      intro k h
      rw [List.map_cons, h.1, ih (k + 1) h.2, List.length_cons, List.range'_succ]

/-- The change-log invariant: the log carries the sequences `1..n` in
order and the next sequence counter is `n + 1`. -/
def changesWf (os : OwnerState) : Prop :=
  seqFrom 1 os.changes ∧ os.nextSeq = os.changes.length + 1

theorem changesWf_initOwner : changesWf initOwner := ⟨trivial, rfl⟩

theorem changesWf_appendChange (os : OwnerState) (h : changesWf os)
    (itemId : Nat) (itemName : String) (t : ChangeType) :
    changesWf (appendChange os itemId itemName t) := by
  constructor
  · exact seqFrom_snoc os.changes 1 _ h.1 (by simp [h.2]; omega)
  · simp [appendChange, h.2]

theorem changesWf_save (os : OwnerState) (h : changesWf os) (name : String) (bytes : Bytes) :
    changesWf (ItemModel.saveFromRawContent os name bytes).2 := by
  unfold ItemModel.saveFromRawContent
  cases ItemModel.loadByName os name with
  | some old => exact changesWf_appendChange _ ⟨h.1, h.2⟩ _ _ _
  | none => exact changesWf_appendChange _ ⟨h.1, h.2⟩ _ _ _

theorem changesWf_delete (os : OwnerState) (h : changesWf os) (itemId : Nat) :
    changesWf (ItemModel.delete os itemId) := by
  unfold ItemModel.delete
  cases os.items.find? (fun i => i.id == itemId) with
  | none => exact h
  | some it => exact changesWf_appendChange _ ⟨h.1, h.2⟩ _ _ _

theorem changesWf_foldl_delete (l : List Item) : ∀ (acc : OwnerState), changesWf acc →
    changesWf (l.foldl (fun a it => ItemModel.delete a it.id) acc) := by
  induction l with
  | nil => intro acc h; exact h
  | cons a rest ih => intro acc h; exact ih _ (changesWf_delete acc h a.id)

theorem changesWf_deleteAll (os : OwnerState) (h : changesWf os) :
    changesWf (ItemModel.deleteAll os) :=
  changesWf_foldl_delete os.items os h

/-- One mutation of the item store, as applicable through the API: a
content upsert, a single-item deletion, or the bulk deletion. -/
inductive Mutation where
  | save (name : String) (bytes : Bytes)
  | del (itemId : Nat)
  | wipe

/-- Applies one mutation to a per-owner state. -/
def applyMutation (os : OwnerState) (m : Mutation) : OwnerState :=
  match m with
  | Mutation.save name bytes => (ItemModel.saveFromRawContent os name bytes).2
  | Mutation.del itemId => ItemModel.delete os itemId
  | Mutation.wipe => ItemModel.deleteAll os

/-- The per-owner state after a finite history of mutations. -/
def applyAll (ms : List Mutation) : OwnerState :=
  ms.foldl applyMutation initOwner

theorem changesWf_applyMutation (os : OwnerState) (h : changesWf os) (m : Mutation) :
    changesWf (applyMutation os m) := by
  cases m with
  | save name bytes => exact changesWf_save os h name bytes
  | del itemId => exact changesWf_delete os h itemId
  | wipe => exact changesWf_deleteAll os h

theorem changesWf_applyAll (ms : List Mutation) : changesWf (applyAll ms) := by
  have main : ∀ (l : List Mutation) (acc : OwnerState), changesWf acc →
      changesWf (l.foldl applyMutation acc) := by
    intro l
    induction l with
    | nil => intro acc h; exact h
    | cons m rest ih => intro acc h; exact ih _ (changesWf_applyMutation acc h m)
  exact main ms initOwner changesWf_initOwner

/-- The position the client resumes from: the position of the decoded
next-page cursor of the response (the request position when the cursor
does not decode). -/
def nextPosition {α : Type} (page : Page α) (pos : Nat) : Nat :=
  match decodeCursor page.cursor with
  | some c => c.position
  | none => pos

/-- Repeated pagination of the change feed: fetch a page, and while
`hasMore` is set resume from the returned cursor, concatenating the pages
in order. The fuel bounds the recursion. -/
def paginateDeltaAll : Nat → OwnerState → Nat → Nat → List ChangeEvent
  | 0, _, _, _ => []
  | fuel + 1, os, pos, limit =>
      (ChangeModel.pageSince os pos limit).items ++
        (if (ChangeModel.pageSince os pos limit).hasMore then
          paginateDeltaAll fuel os (nextPosition (ChangeModel.pageSince os pos limit) pos) limit
        else [])

theorem paginateDeltaAll_succ (f : Nat) (os : OwnerState) (pos limit : Nat) :
    paginateDeltaAll (f + 1) os pos limit =
      (ChangeModel.pageSince os pos limit).items ++
        (if (ChangeModel.pageSince os pos limit).hasMore then
          paginateDeltaAll f os (nextPosition (ChangeModel.pageSince os pos limit) pos) limit
        else []) := rfl

theorem paginateDelta_eq_drop (os : OwnerState) (hwf : seqFrom 1 os.changes)
    (limit : Nat) (hl : 1 ≤ limit) :
    ∀ (fuel pos : Nat), os.changes.length - pos < fuel →
      paginateDeltaAll fuel os pos limit = os.changes.drop pos := by
  intro fuel
  induction fuel with
  | zero => intro pos h; omega
  | succ f ih =>
      intro pos hfuel
      have hfilter : os.changes.filter (fun e => decide (pos < e.sequence)) = os.changes.drop pos := by
        have h := seqFrom_filter os.changes 1 pos hwf
        simpa using h
      have hdlen : (os.changes.drop pos).length = os.changes.length - pos := List.length_drop pos os.changes
      rw [paginateDeltaAll_succ]
      by_cases hm : limit < (os.changes.drop pos).length
      · -- more pages follow: the page holds exactly `limit` events
        have hlen : ((os.changes.drop pos).take limit).length = limit := by
          rw [List.length_take]; omega
        have hne : (os.changes.drop pos).take limit ≠ [] := by
          intro hnil
          rw [hnil] at hlen
          simp at hlen
          omega
        have hsf : seqFrom (1 + pos) (os.changes.drop pos) := seqFrom_drop pos os.changes 1 hwf
        have hsf2 : seqFrom (1 + pos) ((os.changes.drop pos).take limit) :=
          seqFrom_take _ _ _ hsf
        obtain ⟨e, hlast, hseq⟩ := seqFrom_getLast _ _ hsf2 hne
        have hseq' : e.sequence = pos + limit := by rw [hlen] at hseq; omega
        have hmore : (ChangeModel.pageSince os pos limit).hasMore = true := by
          simp only [ChangeModel.pageSince, hfilter]
          exact decide_eq_true hm
        have hnext : nextPosition (ChangeModel.pageSince os pos limit) pos = pos + limit := by
          simp only [nextPosition, ChangeModel.pageSince, hfilter, lastSeenPosition, hlast,
            decodeCursor_encodeCursor, hseq']
        have hrec : paginateDeltaAll f os (pos + limit) limit = os.changes.drop (pos + limit) := by
          apply ih
          omega
        rw [hmore, if_pos rfl, hnext, hrec]
        show (os.changes.filter (fun e => decide (pos < e.sequence))).take limit ++ _ = _
        rw [hfilter]
        have hdd : os.changes.drop (pos + limit) = (os.changes.drop pos).drop limit := by
          rw [List.drop_drop]
        rw [hdd, List.take_append_drop]
      · -- last page: everything from `pos` fits
        have hmore : (ChangeModel.pageSince os pos limit).hasMore = false := by
          simp only [ChangeModel.pageSince, hfilter]
          exact decide_eq_false hm
        rw [hmore, if_neg (by simp), List.append_nil]
        show (os.changes.filter (fun e => decide (pos < e.sequence))).take limit = _
        rw [hfilter]
        exact List.take_of_length_le (by omega)

/-- Claim C1: for every owner and every finite history of mutations,
repeatedly paginating the change feed (`pageSince`, the delta endpoint)
from position 0 until `hasMore` is false yields every ChangeEvent of that
owner exactly once, in the exact order they were appended, with strictly
increasing, gapless, duplicate-free sequence numbers. -/
theorem delta_replay_complete (ms : List Mutation) (limit : Nat) (hl : 1 ≤ limit) :
    paginateDeltaAll ((applyAll ms).changes.length + 1) (applyAll ms) 0 limit =
        (applyAll ms).changes ∧
      (applyAll ms).changes.map (fun e => e.sequence) =
        List.range' 1 (applyAll ms).changes.length := by
  have hwf := changesWf_applyAll ms
  constructor
  · have h := paginateDelta_eq_drop (applyAll ms) hwf.1 limit hl
      ((applyAll ms).changes.length + 1) 0 (by omega)
    simpa using h
  · exact seqFrom_map_range _ 1 hwf.1

theorem delta_replay_complete_witness :
    paginateDeltaAll
        ((applyAll [Mutation.save "a" [1], Mutation.save "a" [2, 3], Mutation.del 1]).changes.length + 1)
        (applyAll [Mutation.save "a" [1], Mutation.save "a" [2, 3], Mutation.del 1]) 0 1 =
      (applyAll [Mutation.save "a" [1], Mutation.save "a" [2, 3], Mutation.del 1]).changes :=
  (delta_replay_complete [Mutation.save "a" [1], Mutation.save "a" [2, 3], Mutation.del 1] 1
    (by decide)).1

/-- Repeated pagination of the children listing: fetch a page, and while
`hasMore` is set resume from the returned cursor. -/
def paginateChildrenAll : Nat → OwnerState → String → Nat → Nat → List Item
  | 0, _, _, _, _ => []
  | fuel + 1, os, parent, pos, limit =>
      (ItemModel.children os parent { position := pos, limit := limit }).items ++
        (if (ItemModel.children os parent { position := pos, limit := limit }).hasMore then
          paginateChildrenAll fuel os parent
            (nextPosition (ItemModel.children os parent { position := pos, limit := limit }) pos)
            limit
        else [])

theorem paginateChildrenAll_succ (f : Nat) (os : OwnerState) (parent : String) (pos limit : Nat) :
    paginateChildrenAll (f + 1) os parent pos limit =
      (ItemModel.children os parent { position := pos, limit := limit }).items ++
        (if (ItemModel.children os parent { position := pos, limit := limit }).hasMore then
          paginateChildrenAll f os parent
            (nextPosition (ItemModel.children os parent { position := pos, limit := limit }) pos)
            limit
        else []) := rfl

theorem paginateChildren_eq_drop (os : OwnerState) (parent : String) (limit : Nat)
    (hl : 1 ≤ limit) :
    ∀ (fuel pos : Nat), (sortedChildren os parent).length - pos < fuel →
      paginateChildrenAll fuel os parent pos limit = (sortedChildren os parent).drop pos := by
  intro fuel
  induction fuel with
  | zero => intro pos h; omega
  | succ f ih =>
      intro pos hfuel
      have hdlen : ((sortedChildren os parent).drop pos).length =
          (sortedChildren os parent).length - pos := List.length_drop pos _
      rw [paginateChildrenAll_succ]
      by_cases hm : limit < ((sortedChildren os parent).drop pos).length
      · have hlen : (((sortedChildren os parent).drop pos).take limit).length = limit := by
          rw [List.length_take]; omega
        have hmore : (ItemModel.children os parent { position := pos, limit := limit }).hasMore
            = true := by
          simp only [ItemModel.children]
          exact decide_eq_true hm
        have hnext :
            nextPosition (ItemModel.children os parent { position := pos, limit := limit }) pos
              = pos + limit := by
          simp only [nextPosition, ItemModel.children, decodeCursor_encodeCursor, hlen]
        have hrec : paginateChildrenAll f os parent (pos + limit) limit =
            (sortedChildren os parent).drop (pos + limit) := by
          apply ih
          omega
        rw [hmore, if_pos rfl, hnext, hrec]
        show ((sortedChildren os parent).drop pos).take limit ++ _ = _
        have hdd : (sortedChildren os parent).drop (pos + limit) =
            ((sortedChildren os parent).drop pos).drop limit := by
          rw [List.drop_drop]
        rw [hdd, List.take_append_drop]
      · have hmore : (ItemModel.children os parent { position := pos, limit := limit }).hasMore
            = false := by
          simp only [ItemModel.children]
          exact decide_eq_false hm
        rw [hmore, if_neg (by simp), List.append_nil]
        show ((sortedChildren os parent).drop pos).take limit = _
        exact List.take_of_length_le (by omega)

/-- Claim C7: for every owner, parent path and cursor, the children
listing returns exactly the items whose canonical name is a direct
descendant of the resolved parent name, ordered by name, paginated through
the same cursor mechanism as the change feed: exhaustive pagination from
position 0 returns the full by-name-ordered listing of the direct
descendants, and every page's cursor decodes (with the shared decoder) to
the offset just past that page. -/
theorem children_listing (os : OwnerState) (parent : String) (limit : Nat) (hl : 1 ≤ limit) :
    paginateChildrenAll ((sortedChildren os parent).length + 1) os parent 0 limit =
        sortedChildren os parent ∧
      (∀ x, x ∈ sortedChildren os parent ↔ x ∈ os.items ∧ isDirectChild parent x.name = true) ∧
      List.Sorted byName (sortedChildren os parent) ∧
      (∀ pos, decodeCursor (ItemModel.children os parent ⟨pos, limit⟩).cursor
        = some ⟨pos + (ItemModel.children os parent ⟨pos, limit⟩).items.length, limit⟩) := by
  refine ⟨?_, ?_, ?_, ?_⟩
  · have h := paginateChildren_eq_drop os parent limit hl
      ((sortedChildren os parent).length + 1) 0 (by omega)
    simpa using h
  · intro x
    unfold sortedChildren
    rw [List.mem_insertionSort, List.mem_filter]
  · exact List.sorted_insertionSort byName _
  · intro pos
    simp only [ItemModel.children, decodeCursor_encodeCursor]

theorem children_listing_witness :
    paginateChildrenAll
        ((sortedChildren
            { items := [{ id := 1, name := "root/b", content := [] },
                        { id := 2, name := "root/a", content := [] },
                        { id := 3, name := "root/a/x", content := [] }]
              changes := [], nextSeq := 1, nextId := 4 } "root").length + 1)
        { items := [{ id := 1, name := "root/b", content := [] },
                    { id := 2, name := "root/a", content := [] },
                    { id := 3, name := "root/a/x", content := [] }]
          changes := [], nextSeq := 1, nextId := 4 } "root" 0 1 =
      sortedChildren
        { items := [{ id := 1, name := "root/b", content := [] },
                    { id := 2, name := "root/a", content := [] },
                    { id := 3, name := "root/a/x", content := [] }]
          changes := [], nextSeq := 1, nextId := 4 } "root" :=
  (children_listing
    { items := [{ id := 1, name := "root/b", content := [] },
                { id := 2, name := "root/a", content := [] },
                { id := 3, name := "root/a/x", content := [] }]
      changes := [], nextSeq := 1, nextId := 4 } "root" 1 (by decide)).1

/-- Claim C8: for every position and every limit within `[1, maxPageSize]`,
decoding an encoded cursor returns exactly that pair; every token that
decodes successfully is an honest encoding of the returned pair (so a
token that is not a valid encoding of any pair never silently yields one),
and a token the decoder rejects surfaces as `InvalidCursor`. -/
theorem cursor_roundtrip (p l : Nat) (h1 : 1 ≤ l) (h2 : l ≤ maxPageSize) :
    decodeCursor (encodeCursor p l) = some ⟨p, l⟩ ∧
      (∀ (t : Token) (p2 l2 : Nat), decodeCursor t = some ⟨p2, l2⟩ → t = encodeCursor p2 l2) ∧
      (∀ (t : Token), decodeCursor t = none →
        requestPagination { cursor := some t, limit := none } =
          Except.error ApiError.invalidCursor) := by
  refine ⟨decodeCursor_encodeCursor p l, ?_, ?_⟩
  · intro t p2 l2 h
    exact decodeCursor_sound t p2 l2 h
  · intro t h
    simp [requestPagination, h]

theorem cursor_roundtrip_witness : decodeCursor (encodeCursor 5 10) = some ⟨5, 10⟩ :=
  (cursor_roundtrip 5 10 (by decide) (by decide)).1

/-- Claim C2: outside the designated non-production mode (`env` other than
`dev`), a DELETE of the special literal id `root` or `root:/:` fails with
the method-not-allowed error and leaves the whole server state — every
item and every ChangeEvent of every owner — exactly as before. -/
theorem root_delete_gated (c : Ctx) (s : ServerState) (pid : String)
    (henv : c.env ≠ "dev") (hroot : pid = "root" ∨ pid = "root:/:") :
    handle c (Request.delItem pid) s =
      (Except.error (ApiError.methodNotAllowed "Deleting the root is not allowed"), s) := by
  have h1 : handleOwner c (Request.delItem pid) (s c.owner) =
      (Except.error (ApiError.methodNotAllowed "Deleting the root is not allowed"), s c.owner) := by
    simp only [handleOwner, delItemRoute, delItemInner, if_pos hroot, if_pos henv]
  simp only [handle, h1, Function.update_eq_self]

theorem root_delete_gated_witness :
    handle { owner := "u", env := "prod" } (Request.delItem "root") initState =
      (Except.error (ApiError.methodNotAllowed "Deleting the root is not allowed"), initState) :=
  root_delete_gated { owner := "u", env := "prod" } initState "root" (by decide) (Or.inl rfl)

/-- Claim C3: for every non-root id, deleting an item that does not exist
(for the caller's owner and the resolved canonical name) completes
successfully, changes nothing — in particular emits no ChangeEvent — and
doing it twice gives the same externally observable result both times. -/
theorem delete_missing_idempotent (c : Ctx) (s : ServerState) (pid : String)
    (h1 : pid ≠ "root") (h2 : pid ≠ "root:/:")
    (habs : ItemModel.loadByName (s c.owner) (ItemModel.pathToName pid) = none) :
    handle c (Request.delItem pid) s = (Except.ok Output.empty, s) ∧
      handle c (Request.delItem pid) (handle c (Request.delItem pid) s).2 =
        (Except.ok Output.empty, s) := by
  have hnr : ¬(pid = "root" ∨ pid = "root:/:") := not_or.mpr ⟨h1, h2⟩
  have hip : itemFromPath (s c.owner) pid =
      Except.error (ApiError.notFound ("Not found: " ++ pid)) := by
    simp [itemFromPath, habs]
  have hown : handleOwner c (Request.delItem pid) (s c.owner) =
      (Except.ok Output.empty, s c.owner) := by
    simp only [handleOwner, delItemRoute, delItemInner, if_neg hnr, hip]
  have hh : handle c (Request.delItem pid) s = (Except.ok Output.empty, s) := by
    simp only [handle, hown, Function.update_eq_self]
  refine ⟨hh, ?_⟩
  rw [hh]
  exact hh

theorem delete_missing_idempotent_witness :
    handle { owner := "u", env := "dev" } (Request.delItem "a") initState =
      (Except.ok Output.empty, initState) :=
  (delete_missing_idempotent { owner := "u", env := "dev" } initState "a"
    (by decide) (by decide) rfl).1

/-- Claim C9: the delta route depends only on the caller's owner id and the
pagination query: two GETs of the delta endpoint with different path ids
and the same query return identical results — the handler binds its path
to the unused `_path` and never reads it. -/
theorem delta_ignores_path (c : Ctx) (s : ServerState) (q : Query) (id1 id2 : String) :
    handle c (Request.getDelta id1 q) s = handle c (Request.getDelta id2 q) s := rfl

/-- Claim C10: in the DELETE route, every `NotFound` raised inside the
`try` block — from path resolution, the item load, or the delete — is
caught and the request completes successfully, while every other error
(in particular the method-not-allowed error of the root gate) propagates
to the caller unchanged; consequently the route never surfaces `NotFound`. -/
theorem del_error_policy (env pid : String) (os : OwnerState) :
    (∀ msg, delItemInner env pid os = Except.error (ApiError.notFound msg) →
        delItemRoute env pid os = (Except.ok Output.empty, os)) ∧
      (∀ e, delItemInner env pid os = Except.error e → (∀ msg, e ≠ ApiError.notFound msg) →
        delItemRoute env pid os = (Except.error e, os)) ∧
      (∀ msg, (delItemRoute env pid os).1 ≠ Except.error (ApiError.notFound msg)) := by
  refine ⟨?_, ?_, ?_⟩
  · intro msg h
    simp [delItemRoute, h]
  · intro e h hne
    cases e with
    | notFound m => exact absurd rfl (hne m)
    | methodNotAllowed m => simp [delItemRoute, h]
    | invalidCursor => simp [delItemRoute, h]
  · intro msg hcontra
    simp only [delItemRoute] at hcontra
    cases hd : delItemInner env pid os with
    | ok os' =>
        rw [hd] at hcontra
        simp at hcontra
    | error e =>
        rw [hd] at hcontra
        cases e with
        | notFound m => simp at hcontra
        | methodNotAllowed m => simp at hcontra
        | invalidCursor => simp at hcontra

theorem del_error_policy_witness :
    (delItemRoute "prod" "root" initOwner).1 ≠ Except.error (ApiError.notFound "missing") ∧
      delItemRoute "prod" "root" initOwner =
        (Except.error (ApiError.methodNotAllowed "Deleting the root is not allowed"), initOwner) :=
  ⟨(del_error_policy "prod" "root" initOwner).2.2 "missing",
    (del_error_policy "prod" "root" initOwner).2.1
      (ApiError.methodNotAllowed "Deleting the root is not allowed") rfl
      (fun _ h => ApiError.noConfusion h)⟩

/-! ### Item store lemmas -/

theorem find?_name_map_replace (name : String) (bytes : Bytes) (l : List Item) :
    l.find? (fun i => i.name == name) = none →
    (l.map (fun i => if i.name == name then { i with content := bytes } else i)).find?
        (fun i => i.name == name) = none := by
  intro h
  rw [List.find?_map]
  have hcomp : ((fun i : Item => i.name == name) ∘
      (fun i : Item => if i.name == name then { i with content := bytes } else i)) =
      (fun i : Item => i.name == name) := by
    funext i
    by_cases hi : i.name = name
    · simp [hi]
    · simp [hi]
  rw [hcomp, h]
  rfl

theorem find?_name_map_replace_some (name : String) (bytes : Bytes) (l : List Item) (old : Item)
    (h : l.find? (fun i => i.name == name) = some old) :
    (l.map (fun i => if i.name == name then { i with content := bytes } else i)).find?
        (fun i => i.name == name) = some { old with content := bytes } := by
  have hname := List.find?_some h
  rw [List.find?_map]
  have hcomp : ((fun i : Item => i.name == name) ∘
      (fun i : Item => if i.name == name then { i with content := bytes } else i)) =
      (fun i : Item => i.name == name) := by
    funext i
    by_cases hi : i.name = name
    · simp [hi]
    · simp [hi]
  rw [hcomp, h]
  have heq : old.name = name := by simpa using hname
  simp [heq]

/-- The full upsert contract of `saveFromRawContent`: the returned item is
the stored item under the requested name, carries exactly the uploaded
bytes, and exactly one ChangeEvent is appended — `Create` when no item of
that name existed, `Update` otherwise. -/
theorem saveContent_spec (os : OwnerState) (name : String) (bytes : Bytes) :
    ItemModel.loadByName (ItemModel.saveFromRawContent os name bytes).2 name =
        some (ItemModel.saveFromRawContent os name bytes).1 ∧
      (ItemModel.saveFromRawContent os name bytes).1.content = bytes ∧
      (ItemModel.saveFromRawContent os name bytes).1.name = name ∧
      ∃ e, (ItemModel.saveFromRawContent os name bytes).2.changes = os.changes ++ [e] ∧
        e.itemId = (ItemModel.saveFromRawContent os name bytes).1.id ∧ e.itemName = name ∧
        e.ctype = (if ItemModel.loadByName os name = none then ChangeType.create
          else ChangeType.update) := by
  cases hload : ItemModel.loadByName os name with
  | none =>
      have hfind : os.items.find? (fun i => i.name == name) = none := hload
      have hsave : ItemModel.saveFromRawContent os name bytes =
          (⟨os.nextId, name, bytes⟩,
            appendChange
              { os with items := os.items ++ [⟨os.nextId, name, bytes⟩], nextId := os.nextId + 1 }
              os.nextId name ChangeType.create) := by
        simp only [ItemModel.saveFromRawContent, hload]
      rw [hsave]
      refine ⟨?_, rfl, rfl, ⟨os.nextSeq, os.nextId, name, ChangeType.create, os.nextSeq⟩,
        ?_, rfl, rfl, ?_⟩
      · simp [ItemModel.loadByName, appendChange, List.find?_append, hfind]
      · simp [appendChange]
      · simp [hload]
  | some old =>
      have hfind : os.items.find? (fun i => i.name == name) = some old := hload
      have hname := List.find?_some hfind
      have hsave : ItemModel.saveFromRawContent os name bytes =
          ({ old with content := bytes },
            appendChange
              { os with items := os.items.map (fun i => if i.name == name then { i with content := bytes } else i) }
              old.id name ChangeType.update) := by
        simp only [ItemModel.saveFromRawContent, hload]
      rw [hsave]
      refine ⟨?_, rfl, ?_, ⟨os.nextSeq, old.id, name, ChangeType.update, os.nextSeq⟩,
        ?_, rfl, rfl, ?_⟩
      · show (os.items.map
            (fun i => if i.name == name then { i with content := bytes } else i)).find?
            (fun i => i.name == name) = some { old with content := bytes }
        exact find?_name_map_replace_some name bytes os.items old hfind
      · simpa using hname
      · simp [appendChange]
      · simp [hload]

/-- Claim C4: a PUT of content (any byte sequence, the empty one included)
is an idempotent upsert: the route stores the bytes under the resolved
canonical name — creating the item when absent, replacing its content when
present — appends exactly one ChangeEvent (`Create` on first write,
`Update` afterwards) in the same operation, and returns the canonical item
representation. -/
theorem putContent_upsert (c : Ctx) (s : ServerState) (pid : String) (body : Option Bytes) :
    handle c (Request.putContent pid body) s =
        (Except.ok (Output.apiItem (ItemModel.toApiOutput
            (ItemModel.saveFromRawContent (s c.owner) (ItemModel.pathToName pid)
              (match body with | some b => b | none => [])).1)),
          Function.update s c.owner
            (ItemModel.saveFromRawContent (s c.owner) (ItemModel.pathToName pid)
              (match body with | some b => b | none => [])).2) ∧
      (ItemModel.loadByName
          (ItemModel.saveFromRawContent (s c.owner) (ItemModel.pathToName pid)
            (match body with | some b => b | none => [])).2 (ItemModel.pathToName pid) =
        some (ItemModel.saveFromRawContent (s c.owner) (ItemModel.pathToName pid)
            (match body with | some b => b | none => [])).1) ∧
      (ItemModel.saveFromRawContent (s c.owner) (ItemModel.pathToName pid)
          (match body with | some b => b | none => [])).1.content =
        (match body with | some b => b | none => []) ∧
      ∃ e, (ItemModel.saveFromRawContent (s c.owner) (ItemModel.pathToName pid)
            (match body with | some b => b | none => [])).2.changes =
          (s c.owner).changes ++ [e] ∧
        e.ctype = (if ItemModel.loadByName (s c.owner) (ItemModel.pathToName pid) = none
          then ChangeType.create else ChangeType.update) := by
  obtain ⟨hload, hcontent, _hname, e, hchanges, _hid, _hnm, hct⟩ :=
    saveContent_spec (s c.owner) (ItemModel.pathToName pid)
      (match body with | some b => b | none => [])
  exact ⟨rfl, hload, hcontent, e, hchanges, hct⟩

theorem find?_id_unique : ∀ (l : List Item), l.Pairwise (fun a b => a.id ≠ b.id) →
    ∀ it ∈ l, l.find? (fun i => i.id == it.id) = some it := by
  intro l
  induction l with
  | nil => intro _ it hmem; cases hmem
  | cons a t ih =>
      intro hl it hmem
      rw [List.pairwise_cons] at hl
      rcases List.mem_cons.mp hmem with h | h
      · subst h
        simp [List.find?]
      · by_cases ha : a.id = it.id
        · exact absurd ha (hl.1 it h)
        · have hfa : (a.id == it.id) = false := by simp [ha]
          simp only [List.find?, hfa]
          exact ih hl.2 it h

/-- In a state whose item ids are pairwise distinct, reading the content of
an item just loaded by name yields that item's bytes. -/
theorem serializedContent_of_loadByName (os : OwnerState) (name : String) (it : Item)
    (hids : os.items.Pairwise (fun a b => a.id ≠ b.id))
    (h : ItemModel.loadByName os name = some it) :
    ItemModel.serializedContent os it.id = some it.content := by
  have hmem : it ∈ os.items := List.mem_of_find?_eq_some h
  have hfind := find?_id_unique os.items hids it hmem
  simp [ItemModel.serializedContent, hfind]

/-- Claim C5: for every caller and path, the metadata GET and the content
GET fail with `NotFound` exactly when no item with the resolved canonical
name exists for the caller's owner; when the item exists, the metadata GET
returns its API representation and the content GET returns its raw bytes
(stated for states whose item ids are pairwise distinct, which every
reachable state satisfies). -/
theorem get_notFound_iff (c : Ctx) (s : ServerState) (pid : String)
    (hids : (s c.owner).items.Pairwise (fun a b => a.id ≠ b.id)) :
    (ItemModel.loadByName (s c.owner) (ItemModel.pathToName pid) = none ↔
        (handle c (Request.getItem pid) s).1 =
          Except.error (ApiError.notFound ("Not found: " ++ pid))) ∧
      (ItemModel.loadByName (s c.owner) (ItemModel.pathToName pid) = none ↔
        (handle c (Request.getContent pid) s).1 =
          Except.error (ApiError.notFound ("Not found: " ++ pid))) ∧
      (∀ it, ItemModel.loadByName (s c.owner) (ItemModel.pathToName pid) = some it →
        handle c (Request.getItem pid) s =
            (Except.ok (Output.apiItem (ItemModel.toApiOutput it)), s) ∧
          handle c (Request.getContent pid) s =
            (Except.ok (Output.itemContent it it.content), s)) := by
  cases hload : ItemModel.loadByName (s c.owner) (ItemModel.pathToName pid) with
  | none =>
      have hip : itemFromPath (s c.owner) pid =
          Except.error (ApiError.notFound ("Not found: " ++ pid)) := by
        simp [itemFromPath, hload]
      have hgi : handleOwner c (Request.getItem pid) (s c.owner) =
          (Except.error (ApiError.notFound ("Not found: " ++ pid)), s c.owner) := by
        simp only [handleOwner, hip]
      have hgc : handleOwner c (Request.getContent pid) (s c.owner) =
          (Except.error (ApiError.notFound ("Not found: " ++ pid)), s c.owner) := by
        simp only [handleOwner, hip]
      refine ⟨⟨fun _ => by simp [handle, hgi], fun _ => rfl⟩,
        ⟨fun _ => by simp [handle, hgc], fun _ => rfl⟩, ?_⟩
      intro it hit
      cases hit
  | some it0 =>
      have hip : itemFromPath (s c.owner) pid = Except.ok it0 := by
        simp [itemFromPath, hload]
      have hser : ItemModel.serializedContent (s c.owner) it0.id = some it0.content :=
        serializedContent_of_loadByName (s c.owner) (ItemModel.pathToName pid) it0 hids hload
      have hgi : handleOwner c (Request.getItem pid) (s c.owner) =
          (Except.ok (Output.apiItem (ItemModel.toApiOutput it0)), s c.owner) := by
        simp only [handleOwner, hip]
      have hgc : handleOwner c (Request.getContent pid) (s c.owner) =
          (Except.ok (Output.itemContent it0 it0.content), s c.owner) := by
        simp only [handleOwner, hip, hser]
      refine ⟨⟨?_, ?_⟩, ⟨?_, ?_⟩, ?_⟩
      · intro h
        cases h
      · intro h
        have hok : (handle c (Request.getItem pid) s).1 =
            Except.ok (Output.apiItem (ItemModel.toApiOutput it0)) := by
          simp [handle, hgi]
        rw [hok] at h
        cases h
      · intro h
        cases h
      · intro h
        have hok : (handle c (Request.getContent pid) s).1 =
            Except.ok (Output.itemContent it0 it0.content) := by
          simp [handle, hgc]
        rw [hok] at h
        cases h
      · intro it hit
        injection hit with hit
        subst hit
        constructor
        · show handle c (Request.getItem pid) s = _
          simp only [handle, hgi, Function.update_eq_self]
        · show handle c (Request.getContent pid) s = _
          simp only [handle, hgc, Function.update_eq_self]

theorem get_notFound_iff_witness :
    (handle { owner := "u", env := "dev" } (Request.getItem "a") initState).1 =
      Except.error (ApiError.notFound ("Not found: " ++ "a")) :=
  ((get_notFound_iff { owner := "u", env := "dev" } initState "a" List.Pairwise.nil).1).mp rfl

/-- Claim C6: every request through the item sync API is computed from and
mutates only the authenticated caller's own slice of the server state:
the response and the caller's resulting slice depend only on the caller's
prior slice, and every other owner's slice is left untouched — no request
can read or modify another owner's items or ChangeEvents. -/
theorem owner_scoped (c : Ctx) (req : Request) (s1 s2 : ServerState)
    (h : s1 c.owner = s2 c.owner) :
    (handle c req s1).1 = (handle c req s2).1 ∧
      (handle c req s1).2 c.owner = (handle c req s2).2 c.owner ∧
      (∀ o, o ≠ c.owner → (handle c req s1).2 o = s1 o ∧ (handle c req s2).2 o = s2 o) := by
  refine ⟨?_, ?_, ?_⟩
  · simp only [handle, h]
  · simp only [handle, Function.update_same, h]
  · intro o ho
    constructor
    · simp only [handle, Function.update_noteq ho]
    · simp only [handle, Function.update_noteq ho]

theorem owner_scoped_witness :
    (handle { owner := "u", env := "dev" } (Request.putContent "a" (some [1])) initState).2 "v" =
      initState "v" :=
  ((owner_scoped { owner := "u", env := "dev" } (Request.putContent "a" (some [1]))
      initState initState rfl).2.2 "v" (by decide)).1
